import Mathlib

/-!
Verification of the arcology-network/scheduler repository (conflict
arbitrator + transaction scheduler).

The development shallowly embeds the Go source:

* the arbitrator's `LookupForConflict` (dict-based arbitrator) together
  with the wildcard expander `Wildcard.Expand`;
* the scheduler (`Scheduler.Add`, `Scheduler.Find`, `Scheduler.New`,
  `Scheduler.ScheduleDeferred`, `Scheduler.StaticSchedule`).

Collaborator code that the repository consumes but does not contain
(the `Univalue` access-class predicates and the `Accumulator`) is
modelled from the specification; each such definition carries a doc
comment saying so.

Go's `sort.Slice` / `sort.SliceStable` are modelled by a stable
insertion sort (`sortByGo`); Go itself uses insertion sort for the
short slices appearing in the concrete evaluations below, and for
strict-weak-order comparators any stable sort produces the same list.
-/

namespace ArcologySched

/-- Stable insert used by `sortByGo`: `a` is placed before the first
element `b` with `less a b`, i.e. after every element it is not
strictly below (stable). -/
def insertSorted (less : α → α → Bool) (a : α) : List α → List α
  | [] => [a]
  | b :: l => if less a b then a :: b :: l else b :: insertSorted less a l

/-- Model of Go `sort.Slice` / `sort.SliceStable`: stable insertion sort. -/
def sortByGo (less : α → α → Bool) (l : List α) : List α :=
  l.foldl (fun acc a => insertSorted less a acc) []

theorem insertSorted_perm (less : α → α → Bool) (a : α) (l : List α) :
    (insertSorted less a l).Perm (a :: l) := by
  induction l with
  | nil => simp [insertSorted]
  | cons b l ih =>
    simp only [insertSorted]
    by_cases h : less a b = true
    · simp [h]
    · simp only [h, if_false]
      exact (ih.cons b).trans (List.Perm.swap a b l)

theorem sortByGo_perm (less : α → α → Bool) (l : List α) :
    (sortByGo less l).Perm l := by
  suffices h : ∀ (l : List α) (acc : List α),
      (l.foldl (fun acc a => insertSorted less a acc) acc).Perm (acc ++ l) by
    simpa using h l []
  intro l
  induction l with
  | nil => intro acc; simp
  | cons a l ih =>
    intro acc
    rw [List.foldl_cons]
    exact (ih _).trans
      (((insertSorted_perm less a acc).append_right l).trans List.perm_middle.symm)

/-- Model of Go `slice.FindFirstIf`: index of the first element
satisfying the predicate, `-1` when there is none. -/
def findFirstIf (l : List α) (p : α → Bool) : Int :=
  match l with
  | [] => -1
  | a :: rest =>
    if p a then 0
    else
      let r := findFirstIf rest p
      if r < 0 then -1 else r + 1

theorem findFirstIf_eq_neg_one (l : List α) (p : α → Bool)
    (h : ∀ a ∈ l, p a = false) : findFirstIf l p = -1 := by
  induction l with
  | nil => rfl
  | cons a rest ih =>
    have ha : p a = false := h a (List.mem_cons_self a rest)
    have hr : findFirstIf rest p = -1 :=
      ih fun x hx => h x (List.mem_cons_of_mem a hx)
    simp [findFirstIf, ha, hr]

end ArcologySched

namespace ArcologySched

/-! ## The transition (`Univalue`) model

`Univalue` is a collaborator type (storage-committer); the repository
only consumes it through a fixed capability set.  Modelled from the
spec: the value payload is either a plain value or a commutative
numeric value carrying declared `min`/`max` bounds and a delta. -/

/-- Modelled from the spec: the value payload of a transition.  A
commutative numeric value exposes `min()`, `max()` and its current
delta. -/
inductive Val where
  | plain : Val
  | comm (lo hi delta : Int) : Val
deriving DecidableEq

/-- Modelled from the spec: one transaction's one access to one state
key, with the capability set the core consumes (`path`, `tx_id`,
access counters, optional value, `preexist`, `expanded`). -/
structure Univalue where
  path : String
  tx : Nat
  reads : Nat
  writes : Nat
  deltaWrites : Nat
  value : Option Val
  preexist : Bool
  expanded : Bool
deriving DecidableEq

instance : Inhabited Univalue :=
  ⟨{ path := "", tx := 0, reads := 0, writes := 0, deltaWrites := 0,
     value := none, preexist := false, expanded := false }⟩

/-- Modelled from the spec (§4.1 class 1), collaborator predicate
`Univalue.IsReadOnly`: no writes, no delta writes, at least one read. -/
def isReadOnly (u : Univalue) : Bool :=
  u.writes == 0 && u.deltaWrites == 0 && decide (0 < u.reads)

/-- Modelled from the spec (§4.1 class 2), collaborator predicate
`Univalue.IsDeltaWriteOnly`: only delta writes. -/
def isDeltaWriteOnly (u : Univalue) : Bool :=
  u.writes == 0 && decide (0 < u.deltaWrites) && u.reads == 0

/-- Modelled from the spec (§4.1 class 3), collaborator predicate
`Univalue.IsDeleteOnly`: one write of a nil value on a preexisting key,
no reads. -/
def isDeleteOnly (u : Univalue) : Bool :=
  u.writes == 1 && u.value == none && u.reads == 0 && u.preexist

/-- Modelled from the spec (§4.1 class 5), collaborator predicate
`Univalue.IsNilInitOnly`: creation of a key (not preexisting) with a
nil initializer, no reads, no writes except the creation marker. -/
def isNilInitOnly (u : Univalue) : Bool :=
  u.writes == 1 && u.value == none && u.reads == 0 &&
    u.deltaWrites == 0 && !u.preexist

/-- Modelled from the spec (§4.1 class 4), collaborator predicate
`Univalue.IsCumulativeWriteOnly(first)`: a commutative cumulative
write (initialization plus deltas) whose declared bounds equal the
reference transition's, no reads. -/
def isCumulativeWriteOnly (u f : Univalue) : Bool :=
  match u.value, f.value with
  | some (Val.comm lo hi _), some (Val.comm lo' hi' _) =>
    lo == lo' && hi == hi' && u.reads == 0 && decide (0 < u.writes)
  | _, _ => false

/-- A conflict record emitted by the arbitrator
(`Conflict` in src/unnamed/part_003).  `groupID`/`sequenceID` bookkeeping
is omitted; `err` is the Go `error` (absent for the default branch). -/
structure Conflict where
  key : String
  self : Nat
  txIDs : List Nat
  conflictTrans : List Univalue
  err : Option String
deriving DecidableEq

/-- Model of the collaborator sort `univalue.Univalues.SortByTx`:
sort the transitions by `tx_id` ascending. -/
def sortByTx (l : List Univalue) : List Univalue :=
  sortByGo (fun a b => decide (a.tx < b.tx)) l

/-- Modelled from the spec (§4.3): the transitions the `Accumulator`
folds — commutative-valued write transitions (no reads). -/
def isAccumulable (u : Univalue) : Bool :=
  match u.value with
  | some (Val.comm _ _ _) => u.reads == 0 && decide (0 < u.writes + u.deltaWrites)
  | _ => false

/-- Find the first position at which the running delta sum leaves
`[lo, hi]`. -/
def firstOutOfBounds (lo hi : Int) : Int → List Univalue → Option Nat
  | _, [] => none
  | acc, u :: rest =>
    let acc' := acc + (match u.value with
      | some (Val.comm _ _ d) => d
      | _ => 0)
    if acc' < lo ∨ hi < acc' then some 0
    else (firstOutOfBounds lo hi acc' rest).map (· + 1)

/-- Modelled from the spec (§4.3): `Accumulator.CheckMinMax`, whose Go
source is not part of this repository.  For the commutative
cumulative-write transitions of the group, fold the deltas in order and
check that every running sum stays within the declared `[lo, hi]`
bounds; on violation emit one conflict naming the earliest transition
that drove the sum out of range, with the following ones as
conflicting. -/
def checkMinMax (trans : List Univalue) : Option Conflict :=
  let cums := trans.filter isAccumulable
  match cums with
  | [] => none
  | c :: _ =>
    match c.value with
    | some (Val.comm lo hi _) =>
      match firstOutOfBounds lo hi 0 cums with
      | none => none
      | some k =>
        some { key := c.path
               self := (cums.getD k default).tx
               txIDs := (cums.drop (k + 1)).map (·.tx)
               conflictTrans := cums.drop (k + 1)
               err := some "accumulator out of bounds" }
    | _ => none

/-- Embedding of `Arbitrator.LookupForConflict`
(src/unnamed/part_001, lines 201-244): sort the group by `tx_id`; the
first transition picks a compatibility class; scan the rest for the
first member incompatible with it; `-1` means no incompatibility, in
which case only the accumulator check runs; otherwise the transitions
from the incompatible one onwards are reported as conflicting with the
first.  (The Go code indexes `newTrans[0]` and is only called on groups
of two or more; the empty case is totalized to `none`.) -/
def lookupForConflict (newTrans : List Univalue) : Option Conflict :=
  match sortByTx newTrans with
  | [] => none
  | first :: subTrans =>
    let ofsErr : Int × Option String :=
      if isReadOnly first then
        (findFirstIf subTrans (fun v => !isReadOnly v),
         some "read with non read only")
      else if isCumulativeWriteOnly first first then
        (findFirstIf subTrans (fun v => !isCumulativeWriteOnly v first),
         some "Commutative Initialization with non commutative initialization")
      else if isDeltaWriteOnly first then
        (findFirstIf subTrans (fun v => !isDeltaWriteOnly v),
         some "Delta write with non delta write only")
      else if isDeleteOnly first then
        (findFirstIf subTrans (fun v => !isDeleteOnly v),
         some "Delete with non delete only")
      else if isNilInitOnly first then
        (findFirstIf subTrans (fun v => !isNilInitOnly v),
         some "Nil initialization with non nil initialization")
      else (0, none)
    let offset := ofsErr.1
    if offset < 0 then checkMinMax (first :: subTrans)
    else
      match checkMinMax ((first :: subTrans).take offset.toNat) with
      | some outOfLimit => some outOfLimit
      | none =>
        let offset' := offset.toNat + 1
        some { key := first.path
               self := first.tx
               txIDs := ((first :: subTrans).drop offset').map (·.tx)
               conflictTrans := (first :: subTrans).drop offset'
               err := ofsErr.2 }

/-- A nil-init-only transition on key `k` from transaction `t` (value
nil, one write recording the creation, no reads, key not preexisting) —
exactly the shape built by `arbitrator_test.go`'s "Nil init / Nil init"
subtest. -/
def nilInitU (t : Nat) : Univalue :=
  { path := "blcc://eth1.0/account/0x0000000", tx := t, reads := 0, writes := 1,
    deltaWrites := 0, value := none, preexist := false, expanded := false }

/-- C1: the claim states that a group of two nil-init-only transitions
on the same key yields exactly one conflict (self_tx = first tx after
sorting, conflicting = the rest).  The code does the opposite: the
nil-init branch of `LookupForConflict` searches the tail for the first
member that is NOT nil-init-only, finds none (offset `-1`), and falls
through to the accumulator check alone, emitting NO conflict — contradicting
the repository's own test (`TestArbiOnCommutatives`, "Nil init / Nil
init": "There should be ONE conflict") and the spec's incompatibility
matrix.  This theorem evaluates the embedded code at the failing
input. -/
theorem lookupForConflict_two_nil_inits_no_conflict :
    lookupForConflict [nilInitU 0, nilInitU 1] = none := by decide

/-- Mutual compatibility of a group of transitions in one access class:
all read-only, all delete-only, all delta-write-only, or all
commutative-cumulative with identical declared bounds. -/
def SameClass (l : List Univalue) : Prop :=
  (∀ u ∈ l, isReadOnly u) ∨ (∀ u ∈ l, isDeleteOnly u) ∨
  (∀ u ∈ l, isDeltaWriteOnly u) ∨
  (∃ lo hi : Int, ∀ u ∈ l,
    isCumulativeWriteOnly u u ∧
    (∃ d : Int, u.value = some (Val.comm lo hi d)))

/-- A commutative cumulative write with bounds `[0,10]` and delta `9`. -/
def commU (t : Nat) : Univalue :=
  { path := "blcc://eth1.0/account/0x0000000", tx := t, reads := 0, writes := 1,
    deltaWrites := 0, value := some (Val.comm 0 10 9), preexist := false,
    expanded := false }

/-- C9 counterexample: the claim says a group of transitions all in the
same mutually compatible access class produces no conflict; but two
commutative cumulative writes with identical declared bounds `[0,10]`
and deltas `9` each drive the running sum to `18 > 10`, so the
accumulator emits an out-of-bounds conflict and `LookupForConflict`
returns it. -/
theorem sameClass_group_with_conflict :
    SameClass [commU 0, commU 1] ∧ 2 ≤ [commU 0, commU 1].length ∧
      lookupForConflict [commU 0, commU 1] ≠ none := by
  refine ⟨Or.inr (Or.inr (Or.inr ⟨0, 10, ?_⟩)), by decide, by decide⟩
  intro u hu
  simp only [List.mem_cons, List.not_mem_nil, or_false] at hu
  rcases hu with h | h <;> subst h <;> exact ⟨by decide, 9, rfl⟩

end ArcologySched

namespace ArcologySched

theorem isReadOnly_false_of_writes_pos (u : Univalue) (h : 0 < u.writes) :
    isReadOnly u = false := by
  simp [isReadOnly, Nat.pos_iff_ne_zero.mp h]

theorem isCumulativeWriteOnly_false_of_writes_zero (u f : Univalue)
    (h : u.writes = 0) : isCumulativeWriteOnly u f = false := by
  unfold isCumulativeWriteOnly
  cases hv : u.value with
  | none => cases f.value <;> rfl
  | some v =>
    cases v with
    | plain => cases f.value <;> rfl
    | comm lo hi d =>
      cases hf : f.value with
      | none => rfl
      | some w => cases w <;> simp [h]

theorem isCumulativeWriteOnly_self (u : Univalue)
    (h : isCumulativeWriteOnly u u = true) : u.reads = 0 ∧ 0 < u.writes := by
  unfold isCumulativeWriteOnly at h
  cases hv : u.value with
  | none => rw [hv] at h; exact absurd h (by simp)
  | some v =>
    cases v with
    | plain => rw [hv] at h; exact absurd h (by simp)
    | comm lo hi d =>
      rw [hv] at h
      simp only [Bool.and_eq_true, beq_iff_eq, decide_eq_true_eq] at h
      exact ⟨h.1.2, h.2⟩

/-- C9, amended: a group of two or more transitions on one key that all
belong to the same mutually compatible access class (all read-only, all
delete-only, all delta-write-only, or all commutative-cumulative with
identical declared bounds) produces no conflict from
`Arbitrator.LookupForConflict`, PROVIDED the accumulator's min/max
check passes on the group (the running delta sums stay within the
declared bounds).  Without that proviso the claim fails, see
`sameClass_group_with_conflict`. -/
theorem lookupForConflict_sameClass_none (l : List Univalue)
    (hlen : 2 ≤ l.length) (hcls : SameClass l)
    (hacc : checkMinMax (sortByTx l) = none) :
    lookupForConflict l = none := by
  have hperm : (sortByTx l).Perm l := sortByGo_perm _ l
  cases hsl : sortByTx l with
  | nil => simp [lookupForConflict, hsl]
  | cons first subTrans =>
    have hmem : ∀ u ∈ first :: subTrans, u ∈ l := by
      intro u hu
      exact (hperm.mem_iff).mp (hsl ▸ hu)
    have hfirst : first ∈ l := hmem first (List.mem_cons_self _ _)
    rw [hsl] at hacc
    rcases hcls with hc | hc | hc | ⟨lo, hi, hc⟩
    · -- all read-only
      have h1 : isReadOnly first = true := hc first hfirst
      have h2 : findFirstIf subTrans (fun v => !isReadOnly v) = -1 :=
        findFirstIf_eq_neg_one _ _ fun v hv => by
          simp [hc v (hmem v (List.mem_cons_of_mem _ hv))]
      simp [lookupForConflict, hsl, h1, h2, hacc]
    · -- all delete-only
      have hfd : isDeleteOnly first = true := hc first hfirst
      have hw1 : first.writes = 1 := by
        have := hfd; simp only [isDeleteOnly, Bool.and_eq_true, beq_iff_eq] at this
        exact this.1.1.1
      have h1 : isReadOnly first = false :=
        isReadOnly_false_of_writes_pos first (by omega)
      have hvn : first.value = none := by
        have h := hfd
        unfold isDeleteOnly at h
        cases hv : first.value with
        | none => rfl
        | some v => rw [hv] at h; simp at h
      have h2 : isCumulativeWriteOnly first first = false := by
        unfold isCumulativeWriteOnly; rw [hvn]
      have h3 : isDeltaWriteOnly first = false := by
        simp [isDeltaWriteOnly, hw1]
      have h4 : findFirstIf subTrans (fun v => !isDeleteOnly v) = -1 :=
        findFirstIf_eq_neg_one _ _ fun v hv => by
          simp [hc v (hmem v (List.mem_cons_of_mem _ hv))]
      simp [lookupForConflict, hsl, h1, h2, h3, hfd, h4, hacc]
    · -- all delta-write-only
      have hfd : isDeltaWriteOnly first = true := hc first hfirst
      have hw0 : first.writes = 0 ∧ 0 < first.deltaWrites := by
        have := hfd
        simp only [isDeltaWriteOnly, Bool.and_eq_true, beq_iff_eq,
          decide_eq_true_eq] at this
        exact ⟨this.1.1, this.1.2⟩
      have h1 : isReadOnly first = false := by
        simp [isReadOnly, hw0.1, Nat.pos_iff_ne_zero.mp hw0.2]
      have h2 : isCumulativeWriteOnly first first = false :=
        isCumulativeWriteOnly_false_of_writes_zero _ _ hw0.1
      have h3 : findFirstIf subTrans (fun v => !isDeltaWriteOnly v) = -1 :=
        findFirstIf_eq_neg_one _ _ fun v hv => by
          simp [hc v (hmem v (List.mem_cons_of_mem _ hv))]
      simp [lookupForConflict, hsl, h1, h2, hfd, h3, hacc]
    · -- all commutative cumulative writes with identical bounds
      have hf := hc first hfirst
      obtain ⟨hfc, df, hdf⟩ := hf
      have hrw := isCumulativeWriteOnly_self first hfc
      have h1 : isReadOnly first = false :=
        isReadOnly_false_of_writes_pos first hrw.2
      have h3 : findFirstIf subTrans (fun v => !isCumulativeWriteOnly v first) = -1 := by
        apply findFirstIf_eq_neg_one
        intro v hv
        obtain ⟨hvc, dv, hdv⟩ := hc v (hmem v (List.mem_cons_of_mem _ hv))
        have hvr := isCumulativeWriteOnly_self v hvc
        have : isCumulativeWriteOnly v first = true := by
          unfold isCumulativeWriteOnly
          rw [hdv, hdf]
          simp [hvr.1, hvr.2]
        simp [this]
      simp [lookupForConflict, hsl, h1, hfc, h3, hacc]

/-- A read-only transition for the C9 witness. -/
def readU (t : Nat) : Univalue :=
  { path := "blcc://eth1.0/account/0x0000000", tx := t, reads := 1, writes := 0,
    deltaWrites := 0, value := some Val.plain, preexist := true,
    expanded := false }

/-- Witness for `lookupForConflict_sameClass_none`: two read-only
transitions on the same key satisfy the hypotheses and produce no
conflict. -/
theorem lookupForConflict_sameClass_none_witness :
    2 ≤ [readU 0, readU 1].length ∧ SameClass [readU 0, readU 1] ∧
      checkMinMax (sortByTx [readU 0, readU 1]) = none ∧
      lookupForConflict [readU 0, readU 1] = none := by
  refine ⟨by decide, Or.inl ?_, by decide, ?_⟩
  · intro u hu
    simp only [List.mem_cons, List.not_mem_nil, or_false] at hu
    rcases hu with h | h <;> subst h <;> decide
  · exact lookupForConflict_sameClass_none _ (by decide)
      (Or.inl (by intro u hu
                  simp only [List.mem_cons, List.not_mem_nil, or_false] at hu
                  rcases hu with h | h <;> subst h <;> decide))
      (by decide)

end ArcologySched

namespace ArcologySched

/-! ## The wildcard expander (src/arbitrator/wildcard.go) -/

/-- Model of Go `strings.HasPrefix(s, p)`: the bytes of `p` are a
prefix of the bytes of `s`. -/
def goHasPrefix (s p : String) : Bool :=
  p.data.isPrefixOf s.data

/-- Model of Go's byte-wise lexicographic `<` on strings. -/
def charListLt : List Char → List Char → Bool
  | [], [] => false
  | [], _ :: _ => true
  | _ :: _, [] => false
  | a :: s, b :: t => if a < b then true else if b < a then false else charListLt s t

/-- The comparator of `Wildcard.Expand`'s `sort.SliceStable` call:
shorter paths first, with the Go source's disjunctive fallback to
lexicographic comparison. -/
def wildcardLess (a b : Univalue) : Bool :=
  decide (a.path.length < b.path.length) || charListLt a.path.data b.path.data

/-- The transition synthesized by `Wildcard.Expand` for a wildcard
`wc` onto the concrete key `k`: the wildcard's properties are cloned,
the write counter is incremented by one, the path is set to `k`, the
value to nil, and the transition is marked expanded. -/
def synthExpanded (k : String) (wc : Univalue) : Univalue :=
  { path := k, tx := wc.tx, reads := wc.reads, writes := wc.writes + 1,
    deltaWrites := wc.deltaWrites, value := none, preexist := wc.preexist,
    expanded := true }

/-- The loop body of `Wildcard.Expand` (src/arbitrator/wildcard.go,
lines 68-93): for each held wildcard in sorted order, if its path is a
strict prefix of the group's key, no transition of the (evolving) group
carries the wildcard's tx, and the group's first transition preexists,
append a synthesized transition to the group and to the result list. -/
def expandLoop : List Univalue → List Univalue → List Univalue →
    List Univalue × List Univalue
  | [], tr, acc => (tr, acc)
  | wc :: ws, tr, acc =>
    let k := (tr.headD default).path
    if wc.path.length != k.length && goHasPrefix k wc.path then
      if findFirstIf tr (fun v => v.tx == wc.tx) = -1 then
        if !(tr.headD default).preexist then expandLoop ws tr acc
        else
          let nu := synthExpanded k wc
          expandLoop ws (tr ++ [nu]) (acc ++ [nu])
      else expandLoop ws tr acc
    else expandLoop ws tr acc

/-- Embedding of `Wildcard.Expand` (src/arbitrator/wildcard.go, lines
56-95): sort the held wildcards by the stable comparator, then run the
expansion loop over the group `trans` (whose members all share one
path); returns the final group and the list of synthesized
transitions. -/
def expand (wl : List Univalue) (trans : List Univalue) :
    List Univalue × List Univalue :=
  if wl.isEmpty then (trans, [])
  else expandLoop (sortByGo wildcardLess wl) trans []

/-- Transcription of the spec's expansion condition for comparison with
the code: the wildcard's path is a strict prefix of the group's key,
the key preexists, and no transition of the group carries the
wildcard's tx id. -/
def expandsOnto (trans : List Univalue) (wc : Univalue) : Bool :=
  let k := (trans.headD default).path
  decide (wc.path.length ≠ k.length) && goHasPrefix k wc.path &&
    (trans.headD default).preexist && trans.all (fun t => t.tx != wc.tx)

theorem findFirstIf_nonneg_or (l : List α) (p : α → Bool) :
    findFirstIf l p = -1 ∨ 0 ≤ findFirstIf l p := by
  induction l with
  | nil => exact Or.inl rfl
  | cons a rest ih =>
    by_cases hpa : p a = true
    · right; simp [findFirstIf, hpa]
    · rw [Bool.not_eq_true] at hpa
      simp only [findFirstIf, hpa, Bool.false_eq_true, if_false]
      rcases ih with h | h
      · left; simp [h]
      · right; split <;> omega

theorem findFirstIf_eq_neg_one_iff (l : List α) (p : α → Bool) :
    findFirstIf l p = -1 ↔ ∀ a ∈ l, p a = false := by
  constructor
  · intro h
    induction l with
    | nil => intro a ha; cases ha
    | cons a rest ih =>
      intro x hx
      by_cases hpa : p a = true
      · exfalso; simp [findFirstIf, hpa] at h
      · rw [Bool.not_eq_true] at hpa
        simp only [findFirstIf, hpa, Bool.false_eq_true, if_false] at h
        rcases List.mem_cons.mp hx with rfl | hx'
        · exact hpa
        · refine ih ?_ x hx'
          rcases findFirstIf_nonneg_or rest p with h' | h'
          · exact h'
          · exfalso
            rw [if_neg (by omega)] at h
            omega
  · exact findFirstIf_eq_neg_one l p

end ArcologySched

namespace ArcologySched

end ArcologySched

namespace ArcologySched

theorem headD_append (l l' : List α) (d : α) (h : l ≠ []) :
    (l ++ l').headD d = l.headD d := by
  cases l with
  | nil => exact absurd rfl h
  | cons a t => rfl

theorem expandLoop_spec (ws : List Univalue) (tr0 extra acc : List Univalue)
    (h0 : tr0 ≠ [])
    (hex : ∀ wc ∈ ws, ∀ t ∈ extra, t.tx ≠ wc.tx)
    (hdist : ws.Pairwise (fun a b => a.tx ≠ b.tx)) :
    expandLoop ws (tr0 ++ extra) acc =
      (tr0 ++ extra ++
        (ws.filter (expandsOnto tr0)).map (synthExpanded ((tr0.headD default).path)),
       acc ++
        (ws.filter (expandsOnto tr0)).map (synthExpanded ((tr0.headD default).path))) := by
  induction ws generalizing extra acc with
  | nil => simp [expandLoop]
  | cons wc ws ih =>
    have hk : (tr0 ++ extra).headD default = tr0.headD default :=
      headD_append _ _ _ h0
    have hexw : ∀ t ∈ extra, t.tx ≠ wc.tx := hex wc (List.mem_cons_self _ _)
    have hex' : ∀ w ∈ ws, ∀ t ∈ extra, t.tx ≠ w.tx :=
      fun w hw => hex w (List.mem_cons_of_mem _ hw)
    have hdist' : ws.Pairwise (fun a b => a.tx ≠ b.tx) := hdist.of_cons
    have hhead : ∀ w ∈ ws, wc.tx ≠ w.tx :=
      fun w hw => List.rel_of_pairwise_cons hdist hw
    simp only [expandLoop, hk]
    by_cases hc1 : (wc.path.length != (tr0.headD default).path.length &&
        goHasPrefix (tr0.headD default).path wc.path) = true
    · rw [if_pos hc1]
      rw [Bool.and_eq_true] at hc1
      by_cases hc2 : findFirstIf (tr0 ++ extra) (fun v => v.tx == wc.tx) = -1
      · rw [if_pos hc2]
        have htx : ∀ t ∈ tr0, (t.tx == wc.tx) = false := by
          intro t ht
          exact (findFirstIf_eq_neg_one_iff _ _).mp hc2 t
            (List.mem_append_left _ ht)
        have hall : tr0.all (fun t => t.tx != wc.tx) = true := by
          rw [List.all_eq_true]
          intro t ht
          have := htx t ht
          simp only [bne, this, Bool.not_false]
        by_cases hc3 : (tr0.headD default).preexist = true
        · rw [if_neg (by simp only [hc3]; decide)]
          have hcond : expandsOnto tr0 wc = true := by
            unfold expandsOnto
            rw [Bool.and_eq_true, Bool.and_eq_true, Bool.and_eq_true]
            exact ⟨⟨⟨by simpa using hc1.1, hc1.2⟩, hc3⟩, hall⟩
          have hstep := ih (extra ++ [synthExpanded ((tr0.headD default).path) wc])
            (acc ++ [synthExpanded ((tr0.headD default).path) wc])
            (by intro w hw t ht
                rcases List.mem_append.mp ht with ht' | ht'
                · exact hex' w hw t ht'
                · rcases List.mem_singleton.mp ht' with rfl
                  exact hhead w hw)
            hdist'
          rw [← List.append_assoc] at hstep
          rw [hstep, List.filter_cons_of_pos hcond]
          simp [List.append_assoc]
        · rw [Bool.not_eq_true] at hc3
          rw [if_pos (by simp only [hc3]; decide)]
          have hcond : expandsOnto tr0 wc = false := by
            unfold expandsOnto
            simp only [hc3, Bool.and_false, Bool.false_and]
          rw [ih extra acc hex' hdist', List.filter_cons_of_neg (by simp [hcond])]
      · rw [if_neg hc2]
        have hcond : expandsOnto tr0 wc = false := by
          have hnot : ¬ ∀ t ∈ tr0 ++ extra, (t.tx == wc.tx) = false := by
            intro hall
            exact hc2 ((findFirstIf_eq_neg_one_iff _ _).mpr hall)
          have hextra : ∀ t ∈ extra, (t.tx == wc.tx) = false := by
            intro t ht
            simpa using hexw t ht
          have hwit : ∃ t ∈ tr0, (t.tx == wc.tx) = true := by
            by_contra hno
            push_neg at hno
            apply hnot
            intro t ht
            rcases List.mem_append.mp ht with ht' | ht'
            · have h' := hno t ht'
              revert h'
              cases h : (t.tx == wc.tx) <;> simp
            · exact hextra t ht'
          obtain ⟨t, ht, htxeq⟩ := hwit
          have hallf : tr0.all (fun t => t.tx != wc.tx) = false := by
            rw [Bool.eq_false_iff]
            intro hall
            rw [List.all_eq_true] at hall
            have := hall t ht
            simp [bne, htxeq] at this
          unfold expandsOnto
          simp only [hallf, Bool.and_false]
        rw [ih extra acc hex' hdist', List.filter_cons_of_neg (by simp [hcond])]
    · rw [if_neg hc1]
      have hcond : expandsOnto tr0 wc = false := by
        rw [Bool.not_eq_true, Bool.and_eq_false_iff] at hc1
        unfold expandsOnto
        rcases hc1 with h | h
        · have h' : wc.path.length = (tr0.headD default).path.length := by
            simpa using h
          simp [h']
        · rw [List.headD_eq_head?] at h
          simp [h]
      rw [ih extra acc hex' hdist', List.filter_cons_of_neg (by simp [hcond])]

end ArcologySched

namespace ArcologySched

theorem eq_of_pairwise_tx (l : List Univalue)
    (h : l.Pairwise (fun a b => a.tx ≠ b.tx)) (a b : Univalue)
    (ha : a ∈ l) (hb : b ∈ l) (htx : a.tx = b.tx) : a = b := by
  induction l with
  | nil => cases ha
  | cons c t ih =>
    have hc : ∀ x ∈ t, c.tx ≠ x.tx := fun x hx => List.rel_of_pairwise_cons h hx
    rcases List.mem_cons.mp ha with rfl | ha' <;>
      rcases List.mem_cons.mp hb with rfl | hb'
    · rfl
    · exact absurd htx (hc b hb')
    · exact absurd htx.symm (hc a ha')
    · exact ih h.of_cons ha' hb'

theorem expandsOnto_iff (trans : List Univalue) (wc : Univalue) :
    expandsOnto trans wc = true ↔
      (wc.path.length ≠ (trans.headD default).path.length ∧
       goHasPrefix (trans.headD default).path wc.path = true ∧
       (trans.headD default).preexist = true ∧
       ∀ t ∈ trans, t.tx ≠ wc.tx) := by
  unfold expandsOnto
  simp [List.all_eq_true, bne_iff_ne, and_assoc, List.headD_eq_head?]

/-- C8: for every held wildcard, `Wildcard.Expand` synthesizes a
transition onto the group's key if and only if the wildcard's path is
a strict prefix of that key (it is a prefix of different length), the
key preexists, and no transition of the group carries the wildcard's
tx id; the synthesized transition clones the wildcard's properties,
carries the concrete key as its path, has its write counter
incremented by one, a nil value, and the `expanded` mark.  Stated for
groups whose held wildcards have pairwise distinct tx ids (so "already
in the group" coincides with the original group: expansions for other
wildcards never carry this wildcard's tx). -/
theorem expand_synthesizes_iff (wl trans : List Univalue)
    (h1 : trans ≠ [])
    (h2 : wl.Pairwise (fun a b => a.tx ≠ b.tx)) :
    (expand wl trans).1 = trans ++ (expand wl trans).2 ∧
    ∀ wc ∈ wl,
      ((∃ t ∈ (expand wl trans).2, t.tx = wc.tx) ↔
        (wc.path.length ≠ (trans.headD default).path.length ∧
         goHasPrefix (trans.headD default).path wc.path = true ∧
         (trans.headD default).preexist = true ∧
         ∀ t ∈ trans, t.tx ≠ wc.tx)) ∧
      (∀ t ∈ (expand wl trans).2, t.tx = wc.tx →
        t = synthExpanded ((trans.headD default).path) wc) := by
  by_cases hwl : wl.isEmpty
  · have : wl = [] := List.isEmpty_iff.mp hwl
    subst this
    simp [expand]
  · have hperm : (sortByGo wildcardLess wl).Perm wl := sortByGo_perm _ wl
    have hdist : (sortByGo wildcardLess wl).Pairwise (fun a b => a.tx ≠ b.tx) :=
      (hperm.pairwise_iff (fun hxy => Ne.symm hxy)).mpr h2
    have hspec := expandLoop_spec (sortByGo wildcardLess wl) trans [] [] h1
      (by intro w hw t ht; cases ht) hdist
    rw [List.append_nil] at hspec
    have hexp : expand wl trans =
        (trans ++ ((sortByGo wildcardLess wl).filter (expandsOnto trans)).map
          (synthExpanded ((trans.headD default).path)),
         ((sortByGo wildcardLess wl).filter (expandsOnto trans)).map
          (synthExpanded ((trans.headD default).path))) := by
      unfold expand
      rw [if_neg (by simp [hwl])]
      rw [hspec]
      simp
    rw [hexp]
    refine ⟨rfl, ?_⟩
    intro wc hwc
    constructor
    · constructor
      · intro ⟨t, ht, httx⟩
        obtain ⟨wc', hwc', rfl⟩ := List.mem_map.mp ht
        have hwf := List.mem_filter.mp hwc'
        have hwc'mem : wc' ∈ wl := hperm.mem_iff.mp hwf.1
        have : wc' = wc :=
          eq_of_pairwise_tx wl h2 wc' wc hwc'mem hwc (by simpa using httx)
        subst this
        exact (expandsOnto_iff trans wc').mp hwf.2
      · intro hprops
        have hcond : expandsOnto trans wc = true :=
          (expandsOnto_iff trans wc).mpr hprops
        have hsorted : wc ∈ sortByGo wildcardLess wl := hperm.mem_iff.mpr hwc
        refine ⟨synthExpanded ((trans.headD default).path) wc, ?_, rfl⟩
        exact List.mem_map_of_mem _ (List.mem_filter.mpr ⟨hsorted, hcond⟩)
    · intro t ht httx
      obtain ⟨wc', hwc', rfl⟩ := List.mem_map.mp ht
      have hwf := List.mem_filter.mp hwc'
      have hwc'mem : wc' ∈ wl := hperm.mem_iff.mp hwf.1
      have : wc' = wc :=
        eq_of_pairwise_tx wl h2 wc' wc hwc'mem hwc (by simpa using httx)
      subst this
      rfl

/-- A concrete wildcard transition (path ends in nothing shorter than
the key) for the C8 witness. -/
def wcW : Univalue :=
  { path := "ab/", tx := 5, reads := 0, writes := 2, deltaWrites := 0,
    value := some Val.plain, preexist := true, expanded := false }

/-- A concrete group member for the C8 witness. -/
def trW : Univalue :=
  { path := "ab/cd", tx := 0, reads := 0, writes := 1, deltaWrites := 0,
    value := some Val.plain, preexist := true, expanded := false }

/-- Witness for `expand_synthesizes_iff` at a concrete input: one held
wildcard with path "ab/" over a preexisting key "ab/cd" from a
different transaction leads to a synthesized transition. -/
theorem expand_synthesizes_iff_witness :
    [trW] ≠ [] ∧ List.Pairwise (fun a b : Univalue => a.tx ≠ b.tx) [wcW] ∧
      ∃ t ∈ (expand [wcW] [trW]).2, t.tx = wcW.tx := by
  refine ⟨by simp, List.pairwise_singleton _ _, ?_⟩
  exact ((expand_synthesizes_iff [wcW] [trW] (by simp)
    (List.pairwise_singleton _ _)).2 wcW (by simp)).1.mpr
    (by refine ⟨by decide, by decide, by decide, ?_⟩
        intro t ht
        simp only [List.mem_singleton] at ht
        subst ht
        decide)

end ArcologySched

namespace ArcologySched

/-! ## The scheduler (src/scheduler.go, src/unnamed/part_000)

Messages (`StandardMessage`) are a collaborator type; the scheduler
reads `ID`, `Native.To`, `Native.Data` and `IsDeferred`.  Addresses and
calldata are byte lists. -/

structure Msg where
  id : Nat
  toAddr : Option (List Nat)
  data : List Nat
  isDeferred : Bool
deriving DecidableEq

instance : Inhabited Msg := ⟨⟨0, none, [], false⟩⟩

/-- A pair `(callee index, message)` as used throughout `Scheduler.New`
(`associative.Pair[uint32, *eucommon.StandardMessage]`). -/
abbrev MsgPair := Nat × Msg

/-- The constant `stgcommon.SHORT_CONTRACT_ADDRESS_LENGTH`. -/
def shortAddrLen : Nat := 8

/-- The constant `stgcommon.FUNCTION_SIGNATURE_LENGTH`. -/
def funcSigLen : Nat := 4

/-- Embedding of `Compact` (src/unnamed/part_000): the first 8 bytes of
the address followed by the first 4 bytes of the function signature.
(Go would panic on a shorter slice; `take` totalizes.) -/
def compact (addr funSign : List Nat) : List Nat :=
  addr.take shortAddrLen ++ funSign.take funcSigLen

/-- The `Callee` record (src/unnamed/part_000). -/
structure Callee where
  index : Nat
  addrAndSign : List Nat
  indices : List Nat
  sequential : Bool
  exceptList : List (List Nat)
  calls : Nat
  avgGas : Nat
  deferrable : Bool
deriving DecidableEq

/-- Embedding of `NewCallee` (src/unnamed/part_000). -/
def newCallee (idx : Nat) (addr funSign : List Nat) : Callee :=
  { index := idx, addrAndSign := compact addr funSign, indices := [],
    sequential := false, exceptList := [], calls := 0, avgGas := 0,
    deferrable := false }

/-- The `Scheduler` state (src/scheduler.go): the callee dictionary
(key = short address ++ signature), the dense callee list, and the
default-deferral flag.  The Go map is modelled by an association list
whose `lookup` sees the newest binding (`Find` never overwrites). -/
structure Scheduler where
  calleeDict : List (List Nat × Nat)
  callees : List Callee
  deferByDefault : Bool
deriving DecidableEq

/-- Embedding of `NewScheduler` (the history file is collaborator
I/O). -/
def newScheduler (deferByDefault : Bool) : Scheduler :=
  ⟨[], [], deferByDefault⟩

/-- Go's `this.callees[i]` (panics out of range; totalized with a
default callee). -/
def calleeAt (s : Scheduler) (i : Nat) : Callee :=
  s.callees.getD i (newCallee 0 [] [])

/-- The dictionary key built by `Scheduler.Find`:
`append(addr[:8], sig[:]...)`. -/
def findKey (addr sig : List Nat) : List Nat :=
  addr.take shortAddrLen ++ sig

/-- Embedding of `Scheduler.Find` (src/scheduler.go, lines 62-71):
look the key up; on a miss intern a fresh callee at the next dense
index.  Returns `(index, updated scheduler, already_existed)`. -/
def find (s : Scheduler) (addr sig : List Nat) : Nat × Scheduler × Bool :=
  let lftKey := findKey addr sig
  match s.calleeDict.lookup lftKey with
  | some idx => (idx, s, true)
  | none =>
    let idx := s.callees.length
    (idx, { s with callees := s.callees ++ [newCallee idx addr sig],
                   calleeDict := (lftKey, idx) :: s.calleeDict }, false)

/-- Replace the conflict-index list of callee `i`. -/
def setIndices (s : Scheduler) (i : Nat) (l : List Nat) : Scheduler :=
  { s with callees := s.callees.set i { calleeAt s i with indices := l } }

/-- Embedding of `Scheduler.Add` (src/scheduler.go, lines 74-89):
intern both callees, append each other's index to the respective
`Indices` list unless already present, and return `true`
(unconditionally, as the Go source does). -/
def add (s0 : Scheduler) (lftAddr lftSig rgtAddr rgtSig : List Nat) :
    Scheduler × Bool :=
  let f1 := find s0 lftAddr lftSig
  let lftIdx := f1.1
  let s1 := f1.2.1
  let f2 := find s1 rgtAddr rgtSig
  let rgtIdx := f2.1
  let s2 := f2.2.1
  let s3 := if (calleeAt s2 lftIdx).indices.contains rgtIdx then s2
            else setIndices s2 lftIdx ((calleeAt s2 lftIdx).indices ++ [rgtIdx])
  let s4 := if (calleeAt s3 rgtIdx).indices.contains lftIdx then s3
            else setIndices s3 rgtIdx ((calleeAt s3 rgtIdx).indices ++ [lftIdx])
  (s4, true)

/-- Embedding of `Scheduler.AddDeferred` (src/scheduler.go). -/
def addDeferred (s : Scheduler) (addr funSig : List Nat) : Scheduler :=
  let f := find s addr funSig
  let s1 := f.2.1
  let c := { calleeAt s1 f.1 with deferrable := true }
  { s1 with callees := s1.callees.set f.1 c }

/-- The value `math.MaxUint32`, the marker for an unknown callee. -/
def maxU32 : Nat := 4294967295

/-- The `Schedule` record (src/unnamed/part_003's sibling schedule
type; `CallCounts` is unused by the embedded operations). -/
structure Schedule where
  transfers : List Msg
  deployments : List Msg
  unknows : List Msg
  withConflict : List Msg
  sequentials : List Msg
  generations : List (List (List Msg))
deriving DecidableEq

def emptySchedule : Schedule := ⟨[], [], [], [], [], []⟩

/-- The callee key of a message: `Compact((*msg.Native.To)[:],
msg.Native.Data[:])` (`To` is non-nil wherever the Go code computes
this; a nil recipient is totalized to the empty address). -/
def msgKey (m : Msg) : List Nat := compact (m.toAddr.getD []) m.data

/-- Embedding of `Scheduler.StaticSchedule` (src/scheduler.go, lines
242-292): move empty-calldata messages to `Transfers`, then
nil-recipient messages to `Deployments`; intern the rest as
`(calleeIdx, msg)` pairs with `MaxUint32` for unknown callees; move
unknowns to `Unknows` and sequential-only callees to `Sequentials`;
the remaining pairs are returned for the generational search.
`slice.MoveIf` is modelled by the two complementary filters. -/
def staticSchedule (s : Scheduler) (stdMsgs : List Msg) :
    Schedule × List MsgPair :=
  if stdMsgs.isEmpty then (emptySchedule, [])
  else
    let transfers := stdMsgs.filter (fun m => m.data.isEmpty)
    let rest1 := stdMsgs.filter (fun m => !m.data.isEmpty)
    let deployments := rest1.filter (fun m => m.toAddr.isNone)
    let rest2 := rest1.filter (fun m => !m.toAddr.isNone)
    if rest2.isEmpty then
      let sch := { emptySchedule with transfers := transfers, deployments := deployments }
      (sch, [])
    else
      let pairs := rest2.map (fun m =>
        ((s.calleeDict.lookup (msgKey m)).getD maxU32, m))
      let unknows := pairs.filter (fun p => p.1 == maxU32)
      let rest3 := pairs.filter (fun p => !(p.1 == maxU32))
      let sequentialOnly := rest3.filter (fun p =>
        if p.1 < s.callees.length then (calleeAt s p.1).sequential else false)
      let rest4 := rest3.filter (fun p =>
        !(if p.1 < s.callees.length then (calleeAt s p.1).sequential else false))
      let sch := { emptySchedule with
                   transfers := transfers
                   deployments := deployments
                   unknows := unknows.map (·.2)
                   sequentials := sequentialOnly.map (·.2) }
      (sch, rest4)

/-- The comparator of the `sort.Slice` call in `Scheduler.New`
(src/scheduler.go, lines 109-115), verbatim: when the left conflict
count is smaller it returns that comparison, otherwise it falls
through to the message-id comparison (also when the left count is
LARGER — the Go source's slip). -/
def newLess (s : Scheduler) (p q : MsgPair) : Bool :=
  let lft := (calleeAt s p.1).indices.length
  let rgt := (calleeAt s q.1).indices.length
  if lft < rgt then decide (lft < rgt) else decide (p.2.id < q.2.id)

/-- The inner scan of `Scheduler.New` (src/scheduler.go, lines
131-146): walk the pending pairs in order; accept a pair when its
callee is not blacklisted and none of its conflict indices is an
already-accepted callee; accepted pairs extend the parallel set, the
blacklist and the accepted-callee set and leave the pending list.
Returns (parallel set, pairs left pending). -/
def scanStep (s : Scheduler) :
    List MsgPair → List MsgPair → List Nat → List Nat →
    List MsgPair × List MsgPair
  | [], para, _, _ => (para, [])
  | t :: rest, para, bl, ids =>
    if !bl.contains t.1 &&
        !((calleeAt s t.1).indices.any (fun x => ids.contains x)) then
      scanStep s rest (para ++ [t]) (bl ++ (calleeAt s t.1).indices)
        (ids ++ [t.1])
    else
      let pr := scanStep s rest para bl ids
      (pr.1, t :: pr.2)

/-- The comparator of `Scheduler.ScheduleDeferred`'s sort: by callee
index, ties by message id. -/
def pairLess (p q : MsgPair) : Bool :=
  if p.1 != q.1 then decide (p.1 < q.1) else decide (p.2.id < q.2.id)

/-- Model of Go `slice.FindLastIf`'s index for a predicate that is
known to match (the probe element itself satisfies it): the last
matching index. -/
def findLastIdx (l : List α) (p : α → Bool) : Nat :=
  l.length - 1 - l.reverse.findIdx p

/-- The loop of `Scheduler.ScheduleDeferred` (src/scheduler.go, lines
198-237), fuel-indexed.  Each iteration finds the first and last
occurrence of the probed callee; it breaks when the last index equals
the previous one (and is nonzero); for a run of length > 1 it moves
the run's last element to the deferred list when the policy allows
(`deferByDefault` or a `Deferrable` callee); otherwise it advances.
The fuel passed by `scheduleDeferred` exceeds the iteration count of
any input (every iteration removes an element, advances `i`, or makes
the next iteration break). -/
def sdLoop (s : Scheduler) :
    Nat → List MsgPair → List MsgPair → Nat → Nat → Nat →
    List MsgPair × List MsgPair
  | 0, p, acc, _, _, _ => (acc, p)
  | fuel + 1, p, acc, i, _, last =>
    if i ≥ p.length then (acc, p)
    else
      let cur := p.getD i default
      let tmpfirst := p.findIdx (fun v => cur.1 == v.1)
      let tmplast := findLastIdx p (fun v => cur.1 == v.1)
      let deferredE := p.getD tmplast default
      if last ≠ 0 ∧ last = tmplast then (acc, p)
      else
        if tmpfirst ≠ tmplast then
          let key := compact ((p.getD i default).2.toAddr.getD [])
            (p.getD i default).2.data
          if s.deferByDefault || (match s.calleeDict.lookup key with
              | some v => (calleeAt s v).deferrable
              | none => false) then
            sdLoop s fuel (p.eraseIdx tmplast) (acc ++ [deferredE])
              tmplast tmpfirst tmplast
          else
            sdLoop s fuel p acc i tmpfirst tmplast
        else
          sdLoop s fuel p acc (tmplast + 1) tmpfirst tmplast

/-- Embedding of `Scheduler.ScheduleDeferred` (src/scheduler.go, lines
189-239): sort the parallel set by (callee index, message id) and run
the deferral loop.  Returns (deferred pairs, remaining pairs). -/
def scheduleDeferred (s : Scheduler) (paraMsgInfo : List MsgPair) :
    List MsgPair × List MsgPair :=
  let sorted := sortByGo pairLess paraMsgInfo
  sdLoop s (2 * sorted.length + 2) sorted [] 0 0 0

theorem scanStep_snd_length (s : Scheduler) (input para : List MsgPair)
    (bl ids : List Nat) :
    (scanStep s input para bl ids).2.length ≤ input.length := by
  induction input generalizing para bl ids with
  | nil => simp [scanStep]
  | cons t rest ih =>
    simp only [scanStep]
    split
    · exact Nat.le_succ_of_le (ih _ _ _)
    · simpa using Nat.succ_le_succ (ih para bl ids)

/-- The outer generational loop of `Scheduler.New` (src/scheduler.go,
lines 119-175), fuel-indexed (each Go iteration pops at least the seed
pair, so `length + 1` fuel — what `schedulerNew` passes — always
reaches the exit; `newLoop_perm` proves no messages are lost under
that fuel): pop the front pair as the seed, scan the rest for the
parallel set; a singleton set goes to `WithConflict` and stops the
loop (whatever is left joins it afterwards); otherwise the set (after
extracting deferred calls) contributes one generation (plus one for
the deferred calls when nonempty) and the loop continues on the
remaining pairs.  Returns (pair-level generations, pair-level
`WithConflict` additions). -/
def newLoop (s : Scheduler) : Nat → List MsgPair → List (List MsgPair) × List MsgPair
  | 0, _ => ([], [])
  | _ + 1, [] => ([], [])
  | fuel + 1, seed :: rest =>
    let pr := scanStep s rest [seed] ((calleeAt s seed.1).indices) [seed.1]
    if pr.1.length == 1 then ([], pr.1 ++ pr.2)
    else
      let dk := scheduleDeferred s pr.1
      let gens := [dk.2] ++ (if dk.1.isEmpty then [] else [dk.1])
      if pr.2.isEmpty then (gens, [])
      else
        let nl := newLoop s fuel pr.2
        (gens ++ nl.1, nl.2)

/-- Embedding of `Scheduler.New` (src/scheduler.go, lines 100-185),
kept at the `(calleeIdx, msg)` pair level: static partition, sort by
the (flawed) conflict-count comparator, run the generational loop,
drop empty generations, wrap every scheduled message as its own lane,
and append the leftovers to `WithConflict`.  Besides the `Schedule` it
returns the pair-level generations it was built from. -/
def schedulerNew (s : Scheduler) (stdMsgs : List Msg) :
    Schedule × List (List MsgPair) :=
  let st := staticSchedule s stdMsgs
  if st.2.isEmpty then (st.1, [])
  else
    let sorted := sortByGo (newLess s) st.2
    let gw := newLoop s (sorted.length + 1) sorted
    let gens := gw.1.filter (fun g => !g.isEmpty)
    let sch := { st.1 with
                 withConflict := st.1.withConflict ++ gw.2.map (·.2)
                 generations := gens.map (fun g => g.map (fun p => [p.2])) }
    (sch, gens)

end ArcologySched

namespace ArcologySched

/-- The address bytes of the test contract "alice" (20 × 'a'). -/
def aliceAddr : List Nat := List.replicate 20 97

/-- The address bytes of the test contract "bob" (20 × 'b'). -/
def bobAddr : List Nat := List.replicate 20 98

def sigA : List Nat := [1, 1, 1, 1]

def sigB : List Nat := [2, 2, 2, 2]

/-- C4: the claim (and `scheduler_test.go`, lines 76-78, and the
`part_004` variant of `Add`) require `Add` to return `false` when the
same conflict pair is added a second time.  The `Add` of
src/scheduler.go returns `true` unconditionally: re-adding the
alice/bob pair still yields `true`, and in fact every call returns
`true` whatever the state. -/
theorem add_always_returns_true :
    (add (add (newScheduler true) aliceAddr sigA bobAddr sigB).1
        aliceAddr sigA bobAddr sigB).2 = true ∧
    ∀ (s : Scheduler) (la ls ra rs : List Nat), (add s la ls ra rs).2 = true := by
  exact ⟨rfl, fun _ _ _ _ _ => rfl⟩

/-- A scheduler whose callee 0 has one known conflict and whose callee
1 has five, for exercising the `Scheduler.New` sort comparator. -/
def s7 : Scheduler :=
  { calleeDict := []
    callees := [{ index := 0, addrAndSign := [], indices := [9],
                  sequential := false, exceptList := [], calls := 0,
                  avgGas := 0, deferrable := false },
                { index := 1, addrAndSign := [], indices := [2, 3, 4, 5, 6],
                  sequential := false, exceptList := [], calls := 0,
                  avgGas := 0, deferrable := false }]
    deferByDefault := false }

def p7 : MsgPair := (0, { id := 1, toAddr := none, data := [], isDeferred := false })

def q7 : MsgPair := (1, { id := 0, toAddr := none, data := [], isDeferred := false })

/-- C7: the claim requires the sorted pair list to be ordered by
conflict count ascending with message id as tie-break.  The Go
comparator returns the id comparison whenever the left count is not
strictly smaller — also when it is strictly LARGER.  On the pairs
(callee 0: one conflict, id 1) and (callee 1: five conflicts, id 0),
the sort places the five-conflict pair first, so the adjacent pair has
strictly descending conflict counts, violating the claimed order.
(For two elements the insertion-sort model coincides with Go's
`sort.Slice`.) -/
theorem newLess_sort_not_count_ascending :
    sortByGo (newLess s7) [p7, q7] = [q7, p7] ∧
    (calleeAt s7 p7.1).indices.length < (calleeAt s7 q7.1).indices.length := by
  exact ⟨rfl, by decide⟩

def s3d : Scheduler := ⟨[], [], true⟩

def mA1 : Msg := ⟨1, some (List.replicate 20 10), [1, 1, 1, 1], false⟩

def mA2 : Msg := ⟨2, some (List.replicate 20 10), [1, 1, 1, 1], false⟩

def mB3 : Msg := ⟨3, some (List.replicate 20 11), [2, 2, 2, 2], false⟩

def mC4 : Msg := ⟨4, some (List.replicate 20 12), [3, 3, 3, 3], false⟩

def mC5 : Msg := ⟨5, some (List.replicate 20 12), [3, 3, 3, 3], false⟩

/-- A lane-set in which callee 0 appears twice, callee 1 once and
callee 2 twice, already in (callee, id) order. -/
def laneSet : List MsgPair := [(0, mA1), (0, mA2), (1, mB3), (2, mC4), (2, mC5)]

/-- C3: the claim requires that EVERY callee with k>1 occurrences in
the lane-set loses exactly one occurrence (the last) to the deferred
set, marked `is_deferred`.  With `defer_by_default` set, the code
defers callee 0's last occurrence, then the loop probes callee 1,
whose single occurrence sits at the same index as the previous run's
last index, so the `last == tmplast` break fires and callee 2 — which
occurs twice and should also be deferred — is never processed; and the
moved message keeps `isDeferred = false` (`ScheduleDeferred` never
sets the flag). -/
theorem scheduleDeferred_skips_later_runs :
    scheduleDeferred s3d laneSet =
      ([(0, mA2)], [(0, mA1), (1, mB3), (2, mC4), (2, mC5)]) ∧
    ((scheduleDeferred s3d laneSet).2.filter (fun p => p.1 == 2)).length = 2 ∧
    mA2.isDeferred = false := by
  refine ⟨by decide, by decide, rfl⟩

/-- C10: in `StaticSchedule` the empty-calldata filter runs before the
nil-recipient filter, so an empty-calldata message always lands in
`Transfers` (even with a nil recipient), and every message in
`Deployments` has non-empty calldata. -/
theorem staticSchedule_transfers_before_deployments (s : Scheduler)
    (msgs : List Msg) :
    (∀ m ∈ msgs, m.data = [] → m ∈ (staticSchedule s msgs).1.transfers) ∧
    (∀ m ∈ (staticSchedule s msgs).1.deployments, m.data ≠ []) := by
  constructor
  · intro m hm hdata
    unfold staticSchedule
    split
    · rename_i hempty
      rw [List.isEmpty_iff] at hempty
      subst hempty
      cases hm
    · dsimp only
      split
      · exact List.mem_filter.mpr ⟨hm, by simp [hdata]⟩
      · exact List.mem_filter.mpr ⟨hm, by simp [hdata]⟩
  · intro m hm
    unfold staticSchedule at hm
    have hdep : ∀ (l : List Msg),
        m ∈ (l.filter (fun x => !x.data.isEmpty)).filter
          (fun x => x.toAddr.isNone) → m.data ≠ [] := by
      intro l hml
      have h1 := (List.mem_filter.mp (List.mem_filter.mp hml).1).2
      intro hd
      rw [hd] at h1
      simp at h1
    split at hm
    · simp [emptySchedule] at hm
    · dsimp only at hm
      split at hm
      · exact hdep _ hm
      · exact hdep _ hm

/-- Witness for `staticSchedule_transfers_before_deployments`: a
message with empty calldata and nil recipient is classified as a
transfer, and the deployments list (empty here) has no empty-calldata
member. -/
theorem staticSchedule_transfers_before_deployments_witness :
    (⟨7, none, [], false⟩ : Msg) ∈ [(⟨7, none, [], false⟩ : Msg)] ∧
      (⟨7, none, [], false⟩ : Msg).data = [] ∧
      (⟨7, none, [], false⟩ : Msg) ∈
        (staticSchedule (newScheduler false) [⟨7, none, [], false⟩]).1.transfers := by
  refine ⟨by simp, rfl, ?_⟩
  exact (staticSchedule_transfers_before_deployments (newScheduler false)
    [⟨7, none, [], false⟩]).1 _ (by simp) rfl

end ArcologySched

namespace ArcologySched

/-- Two pairs are independent when neither callee is in the other's
conflict-index list. -/
def IndepR (s : Scheduler) (p q : MsgPair) : Prop :=
  p.1 ∉ (calleeAt s q.1).indices ∧ q.1 ∉ (calleeAt s p.1).indices

theorem indepR_symm (s : Scheduler) : ∀ {p q : MsgPair},
    IndepR s p q → IndepR s q p := fun h => ⟨h.2, h.1⟩

theorem scanStep_pairwise (s : Scheduler) (input : List MsgPair) :
    ∀ (para : List MsgPair) (bl ids : List Nat),
    (∀ p ∈ para, ∀ x ∈ (calleeAt s p.1).indices, x ∈ bl) →
    (∀ p ∈ para, p.1 ∈ ids) →
    para.Pairwise (IndepR s) →
    (scanStep s input para bl ids).1.Pairwise (IndepR s) := by
  induction input with
  | nil => intro para bl ids _ _ h4; simpa [scanStep] using h4
  | cons t rest ih =>
    intro para bl ids h1 h2 h4
    simp only [scanStep]
    split
    · rename_i hcond
      rw [Bool.and_eq_true, Bool.not_eq_true', Bool.not_eq_true'] at hcond
      have hbl : t.1 ∉ bl := by
        intro hmem
        have : bl.contains t.1 = true := by simpa using hmem
        rw [this] at hcond
        exact absurd hcond.1 (by simp)
      have hids : ∀ x ∈ (calleeAt s t.1).indices, x ∉ ids := by
        intro x hx hxid
        have : ((calleeAt s t.1).indices.any (fun x => ids.contains x)) = true := by
          rw [List.any_eq_true]
          exact ⟨x, hx, by simpa using hxid⟩
        rw [this] at hcond
        exact absurd hcond.2 (by simp)
      apply ih
      · intro p hp x hx
        rcases List.mem_append.mp hp with hp' | hp'
        · exact List.mem_append_left _ (h1 p hp' x hx)
        · rcases List.mem_singleton.mp hp' with rfl
          exact List.mem_append_right _ hx
      · intro p hp
        rcases List.mem_append.mp hp with hp' | hp'
        · exact List.mem_append_left _ (h2 p hp')
        · rcases List.mem_singleton.mp hp' with rfl
          exact List.mem_append_right _ (List.mem_singleton_self _)
      · rw [List.pairwise_append]
        refine ⟨h4, List.pairwise_singleton _ _, ?_⟩
        intro p hp q hq
        rcases List.mem_singleton.mp hq with rfl
        constructor
        · intro hmem
          exact hids p.1 hmem (h2 p hp)
        · intro hmem
          exact hbl (h1 p hp q.1 hmem)
    · exact ih para bl ids h1 h2 h4

theorem cons_getD_eraseIdx_perm (l : List α) (k : Nat) (d : α)
    (h : k < l.length) : ((l.getD k d) :: l.eraseIdx k).Perm l := by
  induction l generalizing k with
  | nil => cases h
  | cons a t ih =>
    cases k with
    | zero => simp
    | succ k =>
      have hk : k < t.length := by simpa using h
      exact (List.Perm.swap a (t.getD k d) (t.eraseIdx k)).trans ((ih k hk).cons a)

end ArcologySched

namespace ArcologySched

theorem sdLoop_perm (s : Scheduler) :
    ∀ (fuel : Nat) (p acc : List MsgPair) (i f l : Nat),
    ((sdLoop s fuel p acc i f l).1 ++ (sdLoop s fuel p acc i f l).2).Perm
      (acc ++ p) := by
  intro fuel
  induction fuel with
  | zero => intro p acc i f l; simp [sdLoop]
  | succ fuel ih =>
    intro p acc i f l
    rw [sdLoop]
    split
    · exact List.Perm.refl _
    · rename_i hlen
      dsimp only
      split
      · exact List.Perm.refl _
      · split
        · split
          · rename_i hne hpol
            have hplen : 0 < p.length := by omega
            have htl : findLastIdx p (fun v => (p.getD i default).1 == v.1) <
                p.length := by
              unfold findLastIdx
              omega
            refine (ih _ _ _ _ _).trans ?_
            have heq : (acc ++ [p.getD (findLastIdx p
                  (fun v => (p.getD i default).1 == v.1)) default]) ++
                p.eraseIdx (findLastIdx p (fun v => (p.getD i default).1 == v.1)) =
                acc ++ (p.getD (findLastIdx p
                  (fun v => (p.getD i default).1 == v.1)) default ::
                  p.eraseIdx (findLastIdx p (fun v => (p.getD i default).1 == v.1))) := by
              simp
            rw [heq]
            exact (cons_getD_eraseIdx_perm _ _ _ htl).append_left acc
          · exact ih _ _ _ _ _
        · exact ih _ _ _ _ _

end ArcologySched

namespace ArcologySched

theorem scheduleDeferred_perm (s : Scheduler) (para : List MsgPair) :
    ((scheduleDeferred s para).1 ++ (scheduleDeferred s para).2).Perm para := by
  unfold scheduleDeferred
  exact (sdLoop_perm s _ _ _ _ _ _).trans
    (by simpa using sortByGo_perm pairLess para)

theorem scanStep_perm (s : Scheduler) (input : List MsgPair) :
    ∀ (para : List MsgPair) (bl ids : List Nat),
    ((scanStep s input para bl ids).1 ++ (scanStep s input para bl ids).2).Perm
      (para ++ input) := by
  induction input with
  | nil => intro para bl ids; simp [scanStep]
  | cons t rest ih =>
    intro para bl ids
    simp only [scanStep]
    split
    · refine (ih _ _ _).trans ?_
      have : (para ++ [t]) ++ rest = para ++ t :: rest := by simp
      rw [this]
    · have h1 : ((scanStep s rest para bl ids).1 ++
          t :: (scanStep s rest para bl ids).2).Perm
          (t :: ((scanStep s rest para bl ids).1 ++
            (scanStep s rest para bl ids).2)) :=
        List.perm_middle
      refine h1.trans ?_
      refine ((ih para bl ids).cons t).trans ?_
      exact List.perm_middle.symm

/-- Every pair-level generation produced by the outer loop of
`Scheduler.New` is pairwise independent: it is (a subset of) a set
built by the admission scan. -/
theorem newLoop_pairwise (s : Scheduler) :
    ∀ (fuel : Nat) (input : List MsgPair),
    ∀ g ∈ (newLoop s fuel input).1, g.Pairwise (IndepR s) := by
  intro fuel
  induction fuel with
  | zero =>
    intro input g hg
    simp [newLoop] at hg
  | succ fuel ih =>
    intro input g hg
    match input with
    | [] => simp [newLoop] at hg
    | seed :: rest =>
      rw [newLoop] at hg
      have hscan : (scanStep s rest [seed] ((calleeAt s seed.1).indices)
          [seed.1]).1.Pairwise (IndepR s) := by
        apply scanStep_pairwise
        · intro p hp x hx
          rcases List.mem_singleton.mp hp with rfl
          exact hx
        · intro p hp
          rcases List.mem_singleton.mp hp with rfl
          exact List.mem_singleton_self _
        · exact List.pairwise_singleton _ _
      set pr := scanStep s rest [seed] ((calleeAt s seed.1).indices) [seed.1]
        with hpr
      split at hg
      · simp at hg
      · have hper : ((scheduleDeferred s pr.1).1 ++
            (scheduleDeferred s pr.1).2).Perm pr.1 :=
          scheduleDeferred_perm s pr.1
        have hpw : ((scheduleDeferred s pr.1).1 ++
            (scheduleDeferred s pr.1).2).Pairwise (IndepR s) :=
          (hper.pairwise_iff (fun h => indepR_symm s h)).mpr hscan
        have hparts := List.pairwise_append.mp hpw
        dsimp only at hg
        split at hg
        · rcases List.mem_append.mp hg with hg' | hg'
          · rcases List.mem_singleton.mp hg' with rfl
            exact hparts.2.1
          · split at hg'
            · cases hg'
            · rcases List.mem_singleton.mp hg' with rfl
              exact hparts.1
        · rcases List.mem_append.mp hg with hg' | hg'
          · rcases List.mem_append.mp hg' with hg'' | hg''
            · rcases List.mem_singleton.mp hg'' with rfl
              exact hparts.2.1
            · split at hg''
              · cases hg''
              · rcases List.mem_singleton.mp hg'' with rfl
                exact hparts.1
          · exact ih pr.2 g hg'

end ArcologySched

namespace ArcologySched

theorem staticSchedule_generations (s : Scheduler) (msgs : List Msg) :
    (staticSchedule s msgs).1.generations = [] := by
  unfold staticSchedule
  split
  · rfl
  · dsimp only
    split
    · rfl
    · rfl

theorem staticSchedule_withConflict (s : Scheduler) (msgs : List Msg) :
    (staticSchedule s msgs).1.withConflict = [] := by
  unfold staticSchedule
  split
  · rfl
  · dsimp only
    split
    · rfl
    · rfl

/-- Unfolding equation for `schedulerNew`. -/
theorem schedulerNew_eq (s : Scheduler) (msgs : List Msg) :
    schedulerNew s msgs =
      if (staticSchedule s msgs).2.isEmpty then ((staticSchedule s msgs).1, [])
      else
        (let gw := newLoop s ((sortByGo (newLess s) (staticSchedule s msgs).2).length + 1)
           (sortByGo (newLess s) (staticSchedule s msgs).2)
         let gens := gw.1.filter (fun g => !g.isEmpty)
         ({ (staticSchedule s msgs).1 with
            withConflict := (staticSchedule s msgs).1.withConflict ++ gw.2.map (·.2)
            generations := gens.map (fun g => g.map (fun p => [p.2])) }, gens)) := rfl

/-- C2: within every pair-level lane-set that `Scheduler.New` appends
to `Generations`, no two accepted pairs have callees appearing in each
other's `Indices` lists; and the message-level `Generations` field is
exactly the image of those pair-level lane-sets (each message wrapped
as its own lane). -/
theorem schedulerNew_lane_sets_independent (s : Scheduler) (msgs : List Msg) :
    (∀ g ∈ (schedulerNew s msgs).2, g.Pairwise (IndepR s)) ∧
    (schedulerNew s msgs).1.generations =
      ((schedulerNew s msgs).2).map (fun g => g.map (fun p => [p.2])) := by
  rw [schedulerNew_eq]
  by_cases h : (staticSchedule s msgs).2.isEmpty
  · rw [if_pos h]
    constructor
    · intro g hg
      simp at hg
    · simp [staticSchedule_generations]
  · rw [if_neg h]
    dsimp only
    constructor
    · intro g hg
      have hg' : g ∈ (newLoop s ((sortByGo (newLess s)
          (staticSchedule s msgs).2).length + 1) (sortByGo (newLess s)
          (staticSchedule s msgs).2)).1 := (List.mem_filter.mp hg).1
      exact newLoop_pairwise s _ _ g hg'
    · rfl

/-- Scheduler state for the C2 witness: the alice/bob and carol/david
conflict pairs are registered (callee indices 0↔1 and 2↔3). -/
def carolAddr : List Nat := List.replicate 20 99

def davidAddr : List Nat := List.replicate 20 100

def sigC : List Nat := [3, 3, 3, 3]

def sigD : List Nat := [4, 4, 4, 4]

def sW : Scheduler :=
  (add (add (newScheduler false) aliceAddr sigA bobAddr sigB).1
    carolAddr sigC davidAddr sigD).1

def callAliceW : Msg := ⟨0, some aliceAddr, sigA, false⟩

def callCarolW : Msg := ⟨1, some carolAddr, sigC, false⟩

/-- Witness for `schedulerNew_lane_sets_independent`: with the
alice/bob and carol/david conflicts registered, scheduling a call to
alice and a call to carol yields the single lane-set
`[(0, alice), (2, carol)]`, which is pairwise independent. -/
theorem schedulerNew_lane_sets_independent_witness :
    [(0, callAliceW), (2, callCarolW)] ∈
        (schedulerNew sW [callAliceW, callCarolW]).2 ∧
      List.Pairwise (IndepR sW) [(0, callAliceW), (2, callCarolW)] := by
  refine ⟨by decide, ?_⟩
  exact (schedulerNew_lane_sets_independent sW [callAliceW, callCarolW]).1
    _ (by decide)

end ArcologySched

namespace ArcologySched

theorem flatten_gens_perm (s : Scheduler) (para : List MsgPair) :
    (([(scheduleDeferred s para).2] ++
      (if (scheduleDeferred s para).1.isEmpty then []
       else [(scheduleDeferred s para).1])).flatten).Perm para := by
  have hper := scheduleDeferred_perm s para
  split
  · rename_i hso
    rw [List.isEmpty_iff] at hso
    rw [hso] at hper
    simpa using hper
  · refine List.Perm.trans ?_ hper
    simp only [List.flatten, List.append_nil]
    exact List.perm_append_comm

theorem newLoop_perm (s : Scheduler) :
    ∀ (fuel : Nat) (input : List MsgPair), input.length < fuel →
    (((newLoop s fuel input).1.flatten) ++ (newLoop s fuel input).2).Perm input := by
  intro fuel
  induction fuel with
  | zero => intro input h; omega
  | succ fuel ih =>
    intro input h
    match input with
    | [] => simp [newLoop]
    | seed :: rest =>
      rw [newLoop]
      dsimp only
      split
      · simpa using scanStep_perm s rest [seed]
          ((calleeAt s seed.1).indices) [seed.1]
      · set pr := scanStep s rest [seed] ((calleeAt s seed.1).indices) [seed.1]
          with hpr
        have hflat := flatten_gens_perm s pr.1
        have hscan : (pr.1 ++ pr.2).Perm (seed :: rest) := by
          simpa using scanStep_perm s rest [seed]
            ((calleeAt s seed.1).indices) [seed.1]
        split
        · rename_i hre
          rw [List.isEmpty_iff] at hre
          have : (pr.1 ++ pr.2).Perm pr.1 := by rw [hre]; simp
          refine ?_
          simp only [List.append_nil]
          exact hflat.trans (this.symm.trans hscan)
        · have hrec : pr.2.length < fuel := by
            have h1 : pr.2.length ≤ rest.length :=
              scanStep_snd_length s rest [seed] _ _
            simp only [List.length_cons] at h
            omega
          have hih := ih pr.2 hrec
          rw [List.flatten_append, List.append_assoc]
          refine ((hflat.append_right _).trans ?_)
          refine (hih.append_left pr.1).trans hscan

end ArcologySched

namespace ArcologySched

theorem staticSchedule_perm (s : Scheduler) (msgs : List Msg) :
    ((staticSchedule s msgs).1.transfers ++ (staticSchedule s msgs).1.deployments ++
     (staticSchedule s msgs).1.unknows ++ (staticSchedule s msgs).1.sequentials ++
     ((staticSchedule s msgs).2.map (·.2))).Perm msgs := by
  unfold staticSchedule
  split
  · rename_i hempty
    rw [List.isEmpty_iff] at hempty
    subst hempty
    simp [emptySchedule]
  · dsimp only
    have h1 : (msgs.filter (fun m => m.data.isEmpty) ++
        msgs.filter (fun m => !m.data.isEmpty)).Perm msgs :=
      List.filter_append_perm _ msgs
    have h2 : ((msgs.filter (fun m => !m.data.isEmpty)).filter (fun m => m.toAddr.isNone) ++
        (msgs.filter (fun m => !m.data.isEmpty)).filter (fun m => !m.toAddr.isNone)).Perm
        (msgs.filter (fun m => !m.data.isEmpty)) :=
      List.filter_append_perm _ _
    split
    · rename_i hre
      rw [List.isEmpty_iff] at hre
      have h2' : ((msgs.filter (fun m => !m.data.isEmpty)).filter
          (fun m => m.toAddr.isNone)).Perm (msgs.filter (fun m => !m.data.isEmpty)) := by
        have := h2
        rw [hre, List.append_nil] at this
        exact this
      simp only [emptySchedule, List.map_nil, List.append_nil]
      refine List.Perm.trans ?_ h1
      exact (h2'.append_left _)
    · dsimp only
      set rest2 := (msgs.filter (fun m => !m.data.isEmpty)).filter
        (fun m => !m.toAddr.isNone) with hrest2
      set pairs := rest2.map (fun m =>
        ((s.calleeDict.lookup (msgKey m)).getD maxU32, m)) with hpairs
      have hmapsnd : pairs.map (·.2) = rest2 := by
        rw [hpairs, List.map_map]
        exact List.map_id rest2
      have h3 : (pairs.filter (fun p => p.1 == maxU32) ++
          pairs.filter (fun p => !(p.1 == maxU32))).Perm pairs :=
        List.filter_append_perm _ _
      set rest3 := pairs.filter (fun p => !(p.1 == maxU32)) with hrest3
      have h4 : (rest3.filter (fun p =>
          if p.1 < s.callees.length then (calleeAt s p.1).sequential else false) ++
          rest3.filter (fun p =>
          !(if p.1 < s.callees.length then (calleeAt s p.1).sequential else false))).Perm
          rest3 :=
        List.filter_append_perm _ _
      -- unknows ++ (sequentials ++ rest4) ~ pairs (at the pair level)
      have h5 : ((pairs.filter (fun p => p.1 == maxU32)) ++
          (rest3.filter (fun p =>
            if p.1 < s.callees.length then (calleeAt s p.1).sequential else false) ++
           rest3.filter (fun p =>
            !(if p.1 < s.callees.length then (calleeAt s p.1).sequential else false)))).Perm
          pairs :=
        ((h4.append_left _).trans h3)
      have h6 := h5.map (·.2)
      rw [hmapsnd] at h6
      simp only [List.map_append] at h6
      -- assemble
      refine List.Perm.trans ?_ h1
      rw [List.append_assoc, List.append_assoc, List.append_assoc]
      refine List.Perm.append_left _ ?_
      refine List.Perm.trans ?_ h2
      rw [← List.append_assoc]
      refine List.Perm.trans ?_ (h6.append_left _)
      simp only [List.append_assoc]
      exact List.Perm.refl _

end ArcologySched

namespace ArcologySched

theorem flatten_map_singleton (g : List MsgPair) :
    (g.map (fun p => [p.2])).flatten = g.map (·.2) := by
  induction g with
  | nil => rfl
  | cons p t ih => simp [ih]

theorem flatten_filter_nonempty (l : List (List MsgPair)) :
    (l.filter (fun g => !g.isEmpty)).flatten = l.flatten := by
  induction l with
  | nil => rfl
  | cons g t ih =>
    by_cases h : g.isEmpty
    · rw [List.isEmpty_iff] at h
      subst h
      simpa using ih
    · rw [List.filter_cons_of_pos (by simp [h])]
      simp [ih]

theorem gens_msgs_eq (l : List (List MsgPair)) :
    ((l.map (fun g => g.map (fun p => [p.2]))).flatten).flatten =
      l.flatten.map (·.2) := by
  induction l with
  | nil => rfl
  | cons g t ih =>
    simp only [List.map_cons, List.flatten_cons, List.flatten_append,
      List.map_append, flatten_map_singleton, ih]

/-- C6: `Scheduler.New` partitions its input.  The transfers,
deployments, unknowns, sequentials and with-conflict messages together
with all messages placed in `Generations` form a permutation of the
input batch (so every input message lands in exactly one place), and
the six sizes sum to the batch size. -/
theorem schedulerNew_partition (s : Scheduler) (msgs : List Msg) :
    ((schedulerNew s msgs).1.transfers ++ (schedulerNew s msgs).1.deployments ++
     (schedulerNew s msgs).1.unknows ++ (schedulerNew s msgs).1.sequentials ++
     (schedulerNew s msgs).1.withConflict ++
     (schedulerNew s msgs).1.generations.flatten.flatten).Perm msgs ∧
    (schedulerNew s msgs).1.transfers.length +
      (schedulerNew s msgs).1.deployments.length +
      (schedulerNew s msgs).1.unknows.length +
      (schedulerNew s msgs).1.sequentials.length +
      (schedulerNew s msgs).1.withConflict.length +
      (schedulerNew s msgs).1.generations.flatten.flatten.length = msgs.length := by
  have hperm : ((schedulerNew s msgs).1.transfers ++
      (schedulerNew s msgs).1.deployments ++
      (schedulerNew s msgs).1.unknows ++ (schedulerNew s msgs).1.sequentials ++
      (schedulerNew s msgs).1.withConflict ++
      (schedulerNew s msgs).1.generations.flatten.flatten).Perm msgs := by
    rw [schedulerNew_eq]
    by_cases h : (staticSchedule s msgs).2.isEmpty
    · rw [if_pos h]
      dsimp only
      rw [staticSchedule_generations, staticSchedule_withConflict]
      have hp := staticSchedule_perm s msgs
      rw [List.isEmpty_iff] at h
      rw [h] at hp
      simpa using hp
    · rw [if_neg h]
      dsimp only
      rw [staticSchedule_withConflict]
      set sorted := sortByGo (newLess s) (staticSchedule s msgs).2 with hsorted
      set gw := newLoop s (sorted.length + 1) sorted with hgw
      have hnl : ((gw.1.flatten) ++ gw.2).Perm sorted :=
        newLoop_perm s (sorted.length + 1) sorted (Nat.lt_succ_self _)
      have hsp : sorted.Perm (staticSchedule s msgs).2 := sortByGo_perm _ _
      -- messages in generations
      have hgen : ((gw.1.filter (fun g => !g.isEmpty)).map
          (fun g => g.map (fun p => [p.2]))).flatten.flatten =
          gw.1.flatten.map (·.2) := by
        rw [gens_msgs_eq, flatten_filter_nonempty]
      rw [hgen]
      -- withConflict ++ generation messages ~ pair messages
      have hwg : ((gw.2.map (·.2)) ++ gw.1.flatten.map (·.2)).Perm
          ((staticSchedule s msgs).2.map (·.2)) := by
        have h1 : (gw.2 ++ gw.1.flatten).Perm (staticSchedule s msgs).2 :=
          (List.perm_append_comm.trans hnl).trans hsp
        simpa using h1.map (·.2)
      have hstat := staticSchedule_perm s msgs
      simp only [List.nil_append, List.append_assoc]
      simp only [List.append_assoc] at hstat
      refine List.Perm.trans ?_ hstat
      refine List.Perm.append_left _ ?_
      refine List.Perm.append_left _ ?_
      refine List.Perm.append_left _ ?_
      refine List.Perm.append_left _ ?_
      exact hwg
  refine ⟨hperm, ?_⟩
  have hlen := hperm.length_eq
  simp only [List.length_append] at hlen
  omega

end ArcologySched

namespace ArcologySched

/-! ## Registry symmetry and idempotence (C5) -/

/-- A callee key: (contract address, function signature). -/
abbrev CalleeKey := (List Nat) × (List Nat)

/-- Run a sequence of `Add` calls against a scheduler. -/
def applyAdds (s : Scheduler) (ops : List (CalleeKey × CalleeKey)) : Scheduler :=
  ops.foldl (fun s op => (add s op.1.1 op.1.2 op.2.1 op.2.2).1) s

/-- The registry's well-formedness: dictionary values index into the
callee list, and no conflict-index list has duplicates. -/
def SchedInv (s : Scheduler) : Prop :=
  (∀ kv ∈ s.calleeDict, kv.2 < s.callees.length) ∧
  (∀ c ∈ s.callees, ∀ j : Nat, c.indices.count j ≤ 1)

theorem lookup_mem : ∀ (l : List (List Nat × Nat)) (k : List Nat) (v : Nat),
    l.lookup k = some v → (k, v) ∈ l := by
  intro l
  induction l with
  | nil => intro k v h; simp [List.lookup] at h
  | cons p t ih =>
    intro k v h
    by_cases hk : (k == p.1) = true
    · rw [List.lookup, hk] at h
      have h2 : some p.2 = some v := h
      have hv : v = p.2 := by injection h2 with h3; omega
      subst hv
      have hkk : k = p.1 := by simpa using hk
      subst hkk
      exact List.mem_cons_self _ _
    · have hk' : (k == p.1) = false := by simpa using hk
      rw [List.lookup, hk'] at h
      exact List.mem_cons_of_mem _ (ih k v h)

theorem getD_mem {l : List α} {i : Nat} {d : α} (h : i < l.length) :
    l.getD i d ∈ l := by
  rw [List.getD_eq_getElem?_getD, List.getElem?_eq_getElem h]
  exact List.getElem_mem h

theorem getD_append_left {l l' : List α} {n : Nat} {d : α} (h : n < l.length) :
    (l ++ l').getD n d = l.getD n d := by
  simp [List.getD_eq_getElem?_getD, List.getElem?_append, h]

theorem getD_append_length {l : List α} {a d : α} :
    (l ++ [a]).getD l.length d = a := by
  simp [List.getD_eq_getElem?_getD]

theorem calleeAt_eq_getElem (s : Scheduler) (i : Nat)
    (h : i < s.callees.length) : calleeAt s i = s.callees[i] := by
  unfold calleeAt
  rw [List.getD_eq_getElem?_getD, List.getElem?_eq_getElem h]
  rfl

theorem calleeAt_setIndices_self (s : Scheduler) (i : Nat) (l : List Nat)
    (h : i < s.callees.length) :
    calleeAt (setIndices s i l) i = { calleeAt s i with indices := l } := by
  have h1 : i < (setIndices s i l).callees.length := by
    unfold setIndices; simpa using h
  rw [calleeAt_eq_getElem _ _ h1]
  unfold setIndices
  simp [List.getElem_set_self]

theorem calleeAt_setIndices_other (s : Scheduler) (i : Nat) (l : List Nat)
    (j : Nat) (h : j ≠ i) :
    calleeAt (setIndices s i l) j = calleeAt s j := by
  unfold calleeAt setIndices
  simp [List.getD_eq_getElem?_getD, List.getElem?_set_ne (Ne.symm h)]

theorem setIndices_dict (s : Scheduler) (i : Nat) (l : List Nat) :
    (setIndices s i l).calleeDict = s.calleeDict := rfl

theorem setIndices_length (s : Scheduler) (i : Nat) (l : List Nat) :
    (setIndices s i l).callees.length = s.callees.length := by
  unfold setIndices
  simp

theorem calleeAt_indices_nil (s : Scheduler) (j : Nat)
    (h : ¬ j < s.callees.length) : (calleeAt s j).indices = [] := by
  unfold calleeAt
  rw [List.getD_eq_getElem?_getD, List.getElem?_eq_none (by omega)]
  rfl

end ArcologySched

namespace ArcologySched

theorem find_spec (s : Scheduler) (addr sig : List Nat) (hinv : SchedInv s) :
    SchedInv (find s addr sig).2.1 ∧
    (find s addr sig).1 < (find s addr sig).2.1.callees.length ∧
    (find s addr sig).2.1.calleeDict.lookup (findKey addr sig) =
      some (find s addr sig).1 ∧
    (∀ k v, s.calleeDict.lookup k = some v →
      (find s addr sig).2.1.calleeDict.lookup k = some v) ∧
    s.callees.length ≤ (find s addr sig).2.1.callees.length ∧
    (∀ j, j < s.callees.length →
      calleeAt (find s addr sig).2.1 j = calleeAt s j) ∧
    ((find s addr sig).2.2 = false →
      (calleeAt (find s addr sig).2.1 (find s addr sig).1).indices = []) := by
  cases hlk : List.lookup (findKey addr sig) s.calleeDict with
  | some idx =>
    have hfind : find s addr sig = (idx, s, true) := by
      unfold find; dsimp only; rw [hlk]
    rw [hfind]
    refine ⟨hinv, ?_, hlk, fun k v h => h, Nat.le_refl _, fun j _ => rfl, ?_⟩
    · exact hinv.1 _ (lookup_mem _ _ _ hlk)
    · intro h; cases h
  | none =>
    have hfind : find s addr sig = (s.callees.length,
        { s with callees := s.callees ++ [newCallee s.callees.length addr sig],
                 calleeDict := (findKey addr sig, s.callees.length) ::
                   s.calleeDict }, false) := by
      unfold find; dsimp only; rw [hlk]
    rw [hfind]
    dsimp only
    refine ⟨⟨?_, ?_⟩, ?_, ?_, ?_, ?_, ?_, ?_⟩
    · intro kv hkv
      rcases List.mem_cons.mp hkv with rfl | hkv'
      · simp
      · have := hinv.1 kv hkv'
        simp only [List.length_append, List.length_cons, List.length_nil]
        omega
    · intro c hc j
      rcases List.mem_append.mp hc with hc' | hc'
      · exact hinv.2 c hc' j
      · rcases List.mem_singleton.mp hc' with rfl
        simp [newCallee]
    · simp
    · simp [List.lookup]
    · intro k v h
      by_cases hk : (k == findKey addr sig) = true
      · have : k = findKey addr sig := by simpa using hk
        subst this
        rw [hlk] at h
        cases h
      · have hk' : (k == findKey addr sig) = false := by simpa using hk
        rw [List.lookup, hk']
        exact h
    · simp
    · intro j hj
      unfold calleeAt
      dsimp only
      rw [getD_append_left hj]
    · intro _
      unfold calleeAt
      dsimp only
      rw [getD_append_length]
      rfl

end ArcologySched

namespace ArcologySched

/-- Evolution of the registry: dictionary entries persist, conflict
indices persist, the callee list only grows. -/
def Extends (s s' : Scheduler) : Prop :=
  (∀ k v, s.calleeDict.lookup k = some v → s'.calleeDict.lookup k = some v) ∧
  (∀ j x, x ∈ (calleeAt s j).indices → x ∈ (calleeAt s' j).indices) ∧
  s.callees.length ≤ s'.callees.length

theorem extends_refl (s : Scheduler) : Extends s s :=
  ⟨fun _ _ h => h, fun _ _ h => h, Nat.le_refl _⟩

theorem extends_trans {s1 s2 s3 : Scheduler} (h1 : Extends s1 s2)
    (h2 : Extends s2 s3) : Extends s1 s3 :=
  ⟨fun k v h => h2.1 k v (h1.1 k v h),
   fun j x h => h2.2.1 j x (h1.2.1 j x h),
   Nat.le_trans h1.2.2 h2.2.2⟩

theorem count_le_one_of_inv {s : Scheduler} (hinv : SchedInv s)
    (i j : Nat) : (calleeAt s i).indices.count j ≤ 1 := by
  by_cases h : i < s.callees.length
  · exact hinv.2 _ (getD_mem h) j
  · rw [calleeAt_indices_nil s i h]
    simp

theorem setIndices_inv {s : Scheduler} (hinv : SchedInv s) (i : Nat)
    (x : Nat) (hx : ¬ ((calleeAt s i).indices.contains x = true)) :
    SchedInv (setIndices s i ((calleeAt s i).indices ++ [x])) := by
  constructor
  · intro kv hkv
    rw [setIndices_length]
    exact hinv.1 kv (by simpa [setIndices] using hkv)
  · intro c hc j
    have hc' : c ∈ s.callees.set i
        ({ calleeAt s i with indices := (calleeAt s i).indices ++ [x] }) := by
      simpa [setIndices] using hc
    rcases List.mem_or_eq_of_mem_set hc' with hc'' | rfl
    · exact hinv.2 c hc'' j
    · dsimp only
      rw [List.count_append]
      by_cases hj : j = x
      · subst hj
        have h0 : (calleeAt s i).indices.count j = 0 := by
          rw [List.count_eq_zero]
          simpa using hx
        simp [h0]
      · have hx0 : ([x].count j) = 0 := by
          rw [List.count_eq_zero]
          simp only [List.mem_singleton]
          exact hj
        rw [hx0]
        have := count_le_one_of_inv hinv i j
        omega

end ArcologySched

namespace ArcologySched

theorem setIndices_extends (s : Scheduler) (i : Nat) (x : Nat) :
    Extends s (setIndices s i ((calleeAt s i).indices ++ [x])) := by
  refine ⟨?_, ?_, ?_⟩
  · intro k v h
    rw [setIndices_dict]
    exact h
  · intro j y hy
    by_cases hj : j = i
    · subst hj
      by_cases hlt : j < s.callees.length
      · rw [calleeAt_setIndices_self _ _ _ hlt]
        exact List.mem_append_left _ hy
      · rw [calleeAt_indices_nil s j hlt] at hy
        cases hy
    · rw [calleeAt_setIndices_other _ _ _ _ hj]
      exact hy
  · exact Nat.le_of_eq (setIndices_length _ _ _).symm

theorem find_extends (s : Scheduler) (addr sig : List Nat)
    (hinv : SchedInv s) : Extends s (find s addr sig).2.1 := by
  have h := find_spec s addr sig hinv
  refine ⟨h.2.2.2.1, ?_, h.2.2.2.2.1⟩
  intro j x hx
  by_cases hj : j < s.callees.length
  · rw [h.2.2.2.2.2.1 j hj]
    exact hx
  · rw [calleeAt_indices_nil s j hj] at hx
    cases hx

/-- Unfolding equation for `add`. -/
theorem add_eq (s0 : Scheduler) (la ls ra rs : List Nat) :
    add s0 la ls ra rs =
      (let s4 :=
        (let s3 :=
          (if (calleeAt (find (find s0 la ls).2.1 ra rs).2.1
                (find s0 la ls).1).indices.contains
                (find (find s0 la ls).2.1 ra rs).1 then
             (find (find s0 la ls).2.1 ra rs).2.1
           else setIndices (find (find s0 la ls).2.1 ra rs).2.1
             (find s0 la ls).1
             ((calleeAt (find (find s0 la ls).2.1 ra rs).2.1
               (find s0 la ls).1).indices ++
               [(find (find s0 la ls).2.1 ra rs).1]))
         if (calleeAt s3 (find (find s0 la ls).2.1 ra rs).1).indices.contains
              (find s0 la ls).1 then s3
         else setIndices s3 (find (find s0 la ls).2.1 ra rs).1
           ((calleeAt s3 (find (find s0 la ls).2.1 ra rs).1).indices ++
             [(find s0 la ls).1]))
       (s4, true)) := rfl

theorem add_spec (s0 : Scheduler) (a b : CalleeKey) (hinv : SchedInv s0) :
    SchedInv (add s0 a.1 a.2 b.1 b.2).1 ∧
    Extends s0 (add s0 a.1 a.2 b.1 b.2).1 ∧
    (∃ ia ib,
      (add s0 a.1 a.2 b.1 b.2).1.calleeDict.lookup (findKey a.1 a.2) = some ia ∧
      (add s0 a.1 a.2 b.1 b.2).1.calleeDict.lookup (findKey b.1 b.2) = some ib ∧
      (calleeAt (add s0 a.1 a.2 b.1 b.2).1 ia).indices.count ib = 1 ∧
      (calleeAt (add s0 a.1 a.2 b.1 b.2).1 ib).indices.count ia = 1) := by
  have FA := find_spec s0 a.1 a.2 hinv
  set ia := (find s0 a.1 a.2).1 with hiadef
  set sA := (find s0 a.1 a.2).2.1 with hsAdef
  have FB := find_spec sA b.1 b.2 FA.1
  set ib := (find sA b.1 b.2).1 with hibdef
  set sB := (find sA b.1 b.2).2.1 with hsBdef
  have hinvB : SchedInv sB := FB.1
  have hiaB : ia < sB.callees.length := Nat.lt_of_lt_of_le FA.2.1 FB.2.2.2.2.1
  have hibB : ib < sB.callees.length := FB.2.1
  have hlkA : sB.calleeDict.lookup (findKey a.1 a.2) = some ia :=
    FB.2.2.2.1 _ _ FA.2.2.1
  have hlkB : sB.calleeDict.lookup (findKey b.1 b.2) = some ib := FB.2.2.1
  -- step 3
  set s3 := (if (calleeAt sB ia).indices.contains ib then sB
             else setIndices sB ia ((calleeAt sB ia).indices ++ [ib]))
    with hs3def
  have hinv3 : SchedInv s3 := by
    rw [hs3def]
    split
    · exact hinvB
    · rename_i hnc
      exact setIndices_inv hinvB ia ib hnc
  have hext3 : Extends sB s3 := by
    rw [hs3def]
    split
    · exact extends_refl sB
    · exact setIndices_extends sB ia ib
  have hcount3 : (calleeAt s3 ia).indices.count ib = 1 := by
    rw [hs3def]
    split
    · rename_i hc
      have h1 : 0 < (calleeAt sB ia).indices.count ib :=
        List.count_pos_iff.mpr (by simpa using hc)
      have h2 := count_le_one_of_inv hinvB ia ib
      omega
    · rename_i hnc
      rw [calleeAt_setIndices_self sB ia _ hiaB]
      dsimp only
      rw [List.count_append]
      have h0 : (calleeAt sB ia).indices.count ib = 0 := by
        rw [List.count_eq_zero]
        simpa using hnc
      simp [h0]
  have hlen3 : s3.callees.length = sB.callees.length := by
    rw [hs3def]
    split
    · rfl
    · exact setIndices_length _ _ _
  have hib3 : ib < s3.callees.length := by omega
  have hdict3 : s3.calleeDict = sB.calleeDict := by
    rw [hs3def]
    split
    · rfl
    · exact setIndices_dict _ _ _
  -- step 4
  set s4 := (if (calleeAt s3 ib).indices.contains ia then s3
             else setIndices s3 ib ((calleeAt s3 ib).indices ++ [ia]))
    with hs4def
  have hinv4 : SchedInv s4 := by
    rw [hs4def]
    split
    · exact hinv3
    · rename_i hnc
      exact setIndices_inv hinv3 ib ia hnc
  have hext4 : Extends s3 s4 := by
    rw [hs4def]
    split
    · exact extends_refl s3
    · exact setIndices_extends s3 ib ia
  have hcount4b : (calleeAt s4 ib).indices.count ia = 1 := by
    rw [hs4def]
    split
    · rename_i hc
      have h1 : 0 < (calleeAt s3 ib).indices.count ia :=
        List.count_pos_iff.mpr (by simpa using hc)
      have h2 := count_le_one_of_inv hinv3 ib ia
      omega
    · rename_i hnc
      rw [calleeAt_setIndices_self s3 ib _ hib3]
      dsimp only
      rw [List.count_append]
      have h0 : (calleeAt s3 ib).indices.count ia = 0 := by
        rw [List.count_eq_zero]
        simpa using hnc
      simp [h0]
  have hcount4a : (calleeAt s4 ia).indices.count ib = 1 := by
    rw [hs4def]
    split
    · exact hcount3
    · rename_i hnc
      by_cases hab : ia = ib
      · exfalso
        apply hnc
        have hpos : 0 < (calleeAt s3 ia).indices.count ib := by omega
        have hmem : ib ∈ (calleeAt s3 ia).indices := List.count_pos_iff.mp hpos
        rw [← hab] at hmem ⊢
        simpa using hmem
      · rw [calleeAt_setIndices_other s3 ib _ ia hab]
        exact hcount3
  have hdict4 : s4.calleeDict = s3.calleeDict := by
    rw [hs4def]
    split
    · rfl
    · exact setIndices_dict _ _ _
  -- assemble
  have hadd : (add s0 a.1 a.2 b.1 b.2).1 = s4 := by
    rw [add_eq]
  refine ⟨?_, ?_, ⟨ia, ib, ?_, ?_, ?_, ?_⟩⟩ <;> rw [hadd]
  · exact hinv4
  · exact extends_trans (find_extends s0 a.1 a.2 hinv)
      (extends_trans (find_extends sA b.1 b.2 FA.1)
        (extends_trans hext3 hext4))
  · rw [hdict4, hdict3]
    exact hlkA
  · rw [hdict4, hdict3]
    exact hlkB
  · exact hcount4a
  · exact hcount4b

end ArcologySched

namespace ArcologySched

theorem applyAdds_append (s : Scheduler) (l1 l2 : List (CalleeKey × CalleeKey)) :
    applyAdds s (l1 ++ l2) = applyAdds (applyAdds s l1) l2 := by
  unfold applyAdds
  exact List.foldl_append _ _ _ _

theorem applyAdds_spec (ops : List (CalleeKey × CalleeKey)) :
    ∀ (s : Scheduler), SchedInv s →
    SchedInv (applyAdds s ops) ∧ Extends s (applyAdds s ops) := by
  induction ops with
  | nil => intro s hinv; exact ⟨hinv, extends_refl s⟩
  | cons op t ih =>
    intro s hinv
    have hA := add_spec s op.1 op.2 hinv
    have hstep : applyAdds s (op :: t) =
        applyAdds (add s op.1.1 op.1.2 op.2.1 op.2.2).1 t := rfl
    rw [hstep]
    have hIH := ih _ hA.1
    exact ⟨hIH.1, extends_trans hA.2.1 hIH.2⟩

theorem newScheduler_inv (d : Bool) : SchedInv (newScheduler d) := by
  constructor
  · intro kv hkv
    simp [newScheduler] at hkv
  · intro c hc
    simp [newScheduler] at hc

/-- C5: registry symmetry and idempotence of `Scheduler.Add`.  Starting
from a fresh scheduler, after any prior `Add` calls and one or more
(`n + 1`) calls `Add(a, b)`, callee `a`'s `Indices` list contains
callee `b`'s index exactly once and vice versa (`Add` appends each
index only when absent, so repetition never duplicates an edge). -/
theorem add_symmetric_idempotent (d : Bool)
    (ops : List (CalleeKey × CalleeKey)) (n : Nat) (a b : CalleeKey) :
    let s := applyAdds (newScheduler d) (ops ++ List.replicate (n + 1) (a, b))
    let ia := (s.calleeDict.lookup (findKey a.1 a.2)).getD 0
    let ib := (s.calleeDict.lookup (findKey b.1 b.2)).getD 0
    ib ∈ (calleeAt s ia).indices ∧ (calleeAt s ia).indices.count ib = 1 ∧
    ia ∈ (calleeAt s ib).indices ∧ (calleeAt s ib).indices.count ia = 1 := by
  intro s ia ib
  have h1 := applyAdds_spec ops (newScheduler d) (newScheduler_inv d)
  set s1 := applyAdds (newScheduler d) ops with hs1
  have hrep : s = applyAdds (add s1 a.1 a.2 b.1 b.2).1
      (List.replicate n (a, b)) := by
    show applyAdds (newScheduler d) (ops ++ List.replicate (n + 1) (a, b)) = _
    rw [applyAdds_append, List.replicate_succ]
    rfl
  have hA := add_spec s1 a b h1.1
  obtain ⟨ia0, ib0, hlA, hlB, hc1, hc2⟩ := hA.2.2
  set s2 := (add s1 a.1 a.2 b.1 b.2).1 with hs2
  have h3 := applyAdds_spec (List.replicate n (a, b)) s2 hA.1
  have hlA' : s.calleeDict.lookup (findKey a.1 a.2) = some ia0 := by
    rw [hrep]
    exact h3.2.1 _ _ hlA
  have hlB' : s.calleeDict.lookup (findKey b.1 b.2) = some ib0 := by
    rw [hrep]
    exact h3.2.1 _ _ hlB
  have hia : ia = ia0 := by
    show (s.calleeDict.lookup (findKey a.1 a.2)).getD 0 = ia0
    rw [hlA']
    rfl
  have hib : ib = ib0 := by
    show (s.calleeDict.lookup (findKey b.1 b.2)).getD 0 = ib0
    rw [hlB']
    rfl
  have hmem1 : ib0 ∈ (calleeAt s ia0).indices := by
    rw [hrep]
    refine h3.2.2.1 ia0 ib0 ?_
    exact List.count_pos_iff.mp (by omega)
  have hmem2 : ia0 ∈ (calleeAt s ib0).indices := by
    rw [hrep]
    refine h3.2.2.1 ib0 ia0 ?_
    exact List.count_pos_iff.mp (by omega)
  have hinvS : SchedInv s := by
    rw [hrep]
    exact h3.1
  have hcnt1 : (calleeAt s ia0).indices.count ib0 = 1 := by
    have hle := count_le_one_of_inv hinvS ia0 ib0
    have hpos : 0 < (calleeAt s ia0).indices.count ib0 :=
      List.count_pos_iff.mpr hmem1
    omega
  have hcnt2 : (calleeAt s ib0).indices.count ia0 = 1 := by
    have hle := count_le_one_of_inv hinvS ib0 ia0
    have hpos : 0 < (calleeAt s ib0).indices.count ia0 :=
      List.count_pos_iff.mpr hmem2
    omega
  rw [hia, hib]
  exact ⟨hmem1, hcnt1, hmem2, hcnt2⟩

end ArcologySched
